import Mathlib

/-!
Shallow embedding of the gosec analyzer core (`analyzer.go`): the analysis
context, rule registry, suppression-directive parser, the `ast.Walk`-driven
traversal with its scoped ignore stack, `Process`, `Report` and `Reset`.

Conventions of the embedding:
* Go AST nodes become a generic tree `Node` carrying the node's dispatch
  category (`kind : Nat`, standing for the node's dynamic type used as the
  registry key), the texts of the comment groups attached to the node by the
  comment map (`ast.CommentMap[n]` is the `comments` field; an absent entry is
  the empty list, which the `for _, group := range groups` loop treats
  identically), and the child list in document order.
* Go maps used as sets (`map[string]bool`) become `List String` with
  membership as the set-membership test; maps keyed by file become
  association lists.
* The iteration sequence of a Go `map` (whose order the language does not
  fix) is passed in explicitly as a list.
* External collaborators (`go/build`, `golang.org/x/tools/go/packages`,
  `GetPkgAbsPath`) are modelled as an environment mapping each package path
  to its outcome.
-/

/-- The file/line/column errors stored in `Analyzer.errors`
(`NewError(line, column, msg)`). -/
structure Error where
  line : Nat
  column : Nat
  err : String
deriving DecidableEq, Repr

/-- Metrics from `analyzer.go`: `NumFiles`, `NumLines`, `NumNosec`, `NumFound`. -/
structure Metrics where
  numFiles : Nat := 0
  numLines : Nat := 0
  numNosec : Nat := 0
  numFound : Nat := 0
deriving DecidableEq, Repr

/-- An issue produced by a rule.  The analyzer core never inspects an issue's
contents, so its payload is an opaque string. -/
structure Issue where
  what : String
deriving DecidableEq, Repr

mutual
/-- Go AST nodes, abstracted: the dispatch category (the concrete node type
used as `RuleSet` key), the attached comment-group texts, and the children in
document order. -/
inductive Node : Type where
| mk : Nat → List String → NodeList → Node
/-- The child list of a node, mutual with `Node` so that the traversal
functions can recurse structurally. -/
inductive NodeList : Type where
| nil : NodeList
| cons : Node → NodeList → NodeList
end

def Node.kind : Node → Nat
  | .mk k _ _ => k

def Node.comments : Node → List String
  | .mk _ cm _ => cm

def Node.children : Node → NodeList
  | .mk _ _ cs => cs

def NodeList.toList : NodeList → List Node
  | .nil => []
  | .cons c cs => c :: cs.toList

/-- `childAt cs i` is the `i`-th child, the child visited by `ast.Walk` in
position `i` of the document order. -/
def childAt : NodeList → Nat → Option Node
  | .nil, _ => none
  | .cons c _, 0 => some c
  | .cons _ cs, i + 1 => childAt cs i

/-- A registered rule: `ID()` and `Match(n, ctx)`, the latter returning an
optional issue and an optional error (`(*Issue, error)`).  The rule body is an
external collaborator, so it is an arbitrary function of the node. -/
structure Rule : Type where
  id : String
  run : Node → Option Issue × Option String

/-- Modelled from the spec: the rule registry (`ruleset.go` is outside the
given sources).  `register` "records the rule against each listed syntax-node
category" and `registeredFor` "returns all rules registered for that category"
in registration order. -/
abbrev RuleSet := List (Nat × Rule)

def RuleSet.register (rs : RuleSet) (r : Rule) (kinds : List Nat) : RuleSet :=
  rs ++ kinds.map (fun k => (k, r))

def RuleSet.registeredFor (rs : RuleSet) (k : Nat) : List Rule :=
  (rs.filter (fun p => p.1 == k)).map (fun p => p.2)

/-- Modelled from the spec: the configuration object (`config.go` is outside
the given sources) "exposing at minimum 'is globally-disabled marker
suppression enabled'".  `none` stands for `IsGlobalEnabled` returning an
error, in which case `NewAnalyzer` keeps the default `false`. -/
structure Config where
  nosecGlobal : Option Bool := none

/-- The per-scan `Context`; only the `Ignores` stack is state the core itself
reads and writes (the other fields are references into loader output, which
the tree model carries on its nodes). -/
structure Context where
  ignores : List (List String) := []
deriving DecidableEq, Repr

/-- The `Analyzer` struct.  The logger is modelled as the list of lines
printed so far. -/
structure Analyzer where
  ignoreNosec : Bool
  ruleset : RuleSet
  context : Context
  config : Config
  log : List String
  issues : List Issue
  stats : Metrics
  errors : List (String × List Error)

/-- `NewAnalyzer`. -/
def newAnalyzer (conf : Config) : Analyzer :=
  { ignoreNosec := conf.nosecGlobal.getD false
    ruleset := []
    context := {}
    config := conf
    log := []
    issues := []
    stats := {}
    errors := [] }

/-- A rule builder from the rule-definition table:
`(identifier, configuration) → (rule, applicable node categories)`. -/
def RuleBuilder := String → Config → Rule × List Nat

/-- `LoadRules`: iterate the rule-definition table and register each built
rule.  The Go code ranges over a `map[string]RuleBuilder`; the language does
not fix that order, so the iteration sequence is the order of the given list. -/
def Analyzer.loadRules (a : Analyzer) (defs : List (String × RuleBuilder)) : Analyzer :=
  defs.foldl
    (fun acc d =>
      let rn := d.2 d.1 acc.config
      { acc with ruleset := acc.ruleset.register rn.1 rn.2 })
    a

/-- `startsWithSeq hay needle`: `needle` is a prefix of `hay`. -/
def startsWithSeq : List Char → List Char → Bool
  | _, [] => true
  | [], _ :: _ => false
  | c :: cs, d :: ds => c == d && startsWithSeq cs ds

/-- `containsSeq hay needle`: `needle` occurs as a contiguous subsequence of
`hay` (Go's `strings.Contains`). -/
def containsSeq : List Char → List Char → Bool
  | [], needle => startsWithSeq [] needle
  | c :: t, needle => startsWithSeq (c :: t) needle || containsSeq t needle

/-- `strings.Contains(group.Text(), "#nosec")`. -/
def hasMarker (s : String) : Bool :=
  containsSeq s.toList "#nosec".toList

/-- All leftmost, non-overlapping matches of the regular expression `(G\d{3})`
in the text (`regexp.FindAllStringSubmatch` with the pattern of
`analyzer.go`): the literal letter `G` followed by exactly three ASCII
digits; after a match the scan resumes past its last character. -/
def findCodes : List Char → List String
  | [] => []
  | 'G' :: d1 :: d2 :: d3 :: rest =>
    if d1.isDigit && d2.isDigit && d3.isDigit then
      String.mk ['G', d1, d2, d3] :: findCodes rest
    else
      findCodes (d1 :: d2 :: d3 :: rest)
  | _ :: rest => findCodes rest

/-- The first comment group attached to the node whose text contains the
`#nosec` marker — the group at which the loop in `ignore` returns. -/
def firstMarkerGroup : List String → Option String
  | [] => none
  | g :: gs => if hasMarker g then some g else firstMarkerGroup gs

/-- The directive evaluation inside `ignore` for the found marker group:
no `G\d{3}` matches means "ignore everything" (`nil, true`), otherwise the
matched rule identifiers with `excludeAll = false`. -/
def evalGroup (g : String) : List String × Bool :=
  let codes := findCodes g.toList
  if codes.isEmpty then ([], true) else (codes, false)

/-- The rule part of `ignore` over a node's attached comment groups: nothing
without a marker, otherwise the first marker group's directive. -/
def evalDirective (comments : List String) : List String × Bool :=
  match firstMarkerGroup comments with
  | none => ([], false)
  | some g => evalGroup g

/-- `Analyzer.ignore(n)`: scan the node's attached comment groups unless
`ignoreNosec` is set; on the first group containing the marker, bump
`NumNosec` once and evaluate the directive. -/
def Analyzer.ignoreNode (a : Analyzer) (n : Node) : Analyzer × (List String × Bool) :=
  if a.ignoreNosec then (a, ([], false))
  else
    match firstMarkerGroup n.comments with
    | none => (a, ([], false))
    | some g =>
      ({ a with stats := { a.stats with numNosec := a.stats.numNosec + 1 } }, evalGroup g)

/-- The fresh union map built in `Visit`: copy the top of the ignore stack
(`Ignores[0]` if the stack is non-empty), then add each newly excluded rule
identifier.  Only key membership matters for a `map[string]bool` used as a
set. -/
def unionIgnores (base : List String) (codes : List String) : List String :=
  base ++ codes.filter (fun c => !(base.contains c))

/-- Push the merged set onto the ignore stack
(`Ignores = append([]map[string]bool{ignores}, Ignores...)`). -/
def pushIgnores (a : Analyzer) (s : List String) : Analyzer :=
  { a with context := { a.context with ignores := s :: a.context.ignores } }

/-- The `n == nil` branch of `Visit`: pop the ignore stack if non-empty. -/
def popIgnores (a : Analyzer) : Analyzer :=
  match a.context.ignores with
  | [] => a
  | _ :: rest => { a with context := { a.context with ignores := rest } }

/-- The rule-dispatch loop of `Visit` over the rules registered for the node:
skip a rule whose identifier is in the merged ignore set; otherwise invoke its
match operation, log a returned error, and append a returned issue while
bumping `NumFound`.  Alongside the updated analyzer it returns the
identifiers of the rules actually invoked, in invocation order. -/
def dispatchStep (r : Rule) (n : Node) (st : Analyzer × List String) :
    Analyzer × List String :=
  let a1 :=
    match (r.run n).2 with
    | some e => { st.1 with log := st.1.log ++ ["Rule error: " ++ e] }
    | none => st.1
  match (r.run n).1 with
  | some iss =>
    ({ a1 with
        issues := a1.issues ++ [iss]
        stats := { a1.stats with numFound := a1.stats.numFound + 1 } },
     st.2 ++ [r.id])
  | none => (a1, st.2 ++ [r.id])

def dispatchList (ign : List String) (n : Node) :
    List Rule → Analyzer × List String → Analyzer × List String
  | [], st => st
  | r :: rest, st =>
    if ign.contains r.id then
      dispatchList ign n rest st
    else
      dispatchList ign n rest (dispatchStep r n st)

def dispatchNode (a : Analyzer) (ign : List String) (n : Node) : Analyzer × List String :=
  dispatchList ign n (a.ruleset.registeredFor n.kind) (a, [])

/-- One visited node, as recorded by the instrumented traversal: its address
(the child-index path from the walk's root), the node itself, the merged
ignore set active while dispatching it, and the identifiers of the rules
invoked on it. -/
structure VisitEntry where
  addr : List Nat
  node : Node
  active : List String
  invoked : List String

mutual
/-- `ast.Walk(gosec, n)` driving `Analyzer.Visit`: evaluate the node's
directive (bumping `NumNosec` for a found marker); on exclude-all return
`nil`, so neither this node nor any descendant is dispatched and nothing is
pushed or popped; otherwise push the merged ignore set, dispatch the
registered rules, walk the children in order, and pop on the trailing
`Visit(nil)`.  The import-tracker update touches no state modelled here and
is omitted.  Besides the updated analyzer, the walk returns the list of
visited (dispatched) nodes, instrumented for the statements below. -/
def walk (a : Analyzer) (addr : List Nat) : Node → Analyzer × List VisitEntry
  | Node.mk k cm cs =>
    let n := Node.mk k cm cs
    let step := a.ignoreNode n
    if step.2.2 then (step.1, [])
    else
      let active := unionIgnores (step.1.context.ignores.headD []) step.2.1
      let a2 := pushIgnores step.1 active
      let d := dispatchNode a2 active n
      let w := walkChildren d.1 addr 0 cs
      (popIgnores w.1, ⟨addr, n, active, d.2⟩ :: w.2)
/-- The child loop of `ast.Walk`: walk each child, threading the analyzer,
with `i` the document-order index of the first remaining child. -/
def walkChildren (a : Analyzer) (addr : List Nat) (i : Nat) :
    NodeList → Analyzer × List VisitEntry
  | .nil => (a, [])
  | .cons c cs =>
    let w1 := walk a (addr ++ [i]) c
    let w2 := walkChildren w1.1 addr (i + 1) cs
    (w2.1, w1.2 ++ w2.2)
end

/-- A loader diagnostic, already split into the `file:line:column: message`
fields that `Process` parses out of `packages.Package.Errors` (the loader's
error strings are well-formed, so the `strconv.Atoi` branches do not fail). -/
structure GoError where
  file : String
  line : Nat
  column : Nat
  msg : String

/-- One file of a loaded package: its syntax-tree root and its physical line
count (`FileSet.File(...).LineCount()`). -/
structure FileUnit where
  root : Node
  lineCount : Nat

/-- A `packages.Package` as far as the core reads it: name, parsed files, and
per-package loader diagnostics. -/
structure Package where
  name : String
  files : List FileUnit
  errors : List GoError

/-- Modelled from the spec: what the external loader stack (`GetPkgAbsPath`,
`go/build.ImportDir`, `packages.Load` — all outside the given sources) does
with one package path: the path may not exist ("a simply-missing path is
logged and skipped"), the import resolution or the load may fail fatally
("loader failures are fatal"), or a list of packages is produced. -/
inductive PathOutcome where
  | missing
  | importError (e : String)
  | loadError (e : String)
  | ok (pkgs : List Package)

/-- The first loop of `Process`: resolve each path, skipping (with a log
line) paths that do not exist, returning immediately the error of a
failed import resolution or package load, and accumulating loaded packages. -/
def collectPkgs (a : Analyzer) (env : String → PathOutcome) :
    List String → Except String (Analyzer × List Package)
  | [] => .ok (a, [])
  | p :: rest =>
    match env p with
    | .missing =>
      collectPkgs
        { a with log := a.log ++ ["Skipping: " ++ p ++ ". Path doesn't exist."] } env rest
    | .importError e => .error e
    | .loadError e => .error e
    | .ok pkgs =>
      match collectPkgs { a with log := a.log ++ ["Import directory: " ++ p] } env rest with
      | .error e => .error e
      | .ok (a1, ps) => .ok (a1, pkgs ++ ps)

/-- Append one parse error under its file key, mirroring the
`gosec.errors[filePath]` append with the fresh-slice branch for a missing
key. -/
def addError : List (String × List Error) → String → Error → List (String × List Error)
  | [], f, e => [(f, [e])]
  | (g, es) :: rest, f, e =>
    if g = f then (g, es ++ [e]) :: rest else (g, es) :: addError rest f e

/-- The second loop of `Process`: record every loader diagnostic of every
package under its file. -/
def recordErrors (m : List (String × List Error)) (pkgs : List Package) :
    List (String × List Error) :=
  pkgs.foldl
    (fun acc pkg =>
      pkg.errors.foldl (fun acc2 ge => addError acc2 ge.file ⟨ge.line, ge.column, ge.msg⟩) acc)
    m

/-- The `(line, column)` comparison the error lists are sorted by. -/
def errLeP (x y : Error) : Prop :=
  x.line < y.line ∨ (x.line = y.line ∧ x.column ≤ y.column)

instance : DecidableRel errLeP := fun x y =>
  inferInstanceAs (Decidable (x.line < y.line ∨ (x.line = y.line ∧ x.column ≤ y.column)))

instance : IsTotal Error errLeP := by
  constructor
  intro x y
  unfold errLeP
  omega

instance : IsTrans Error errLeP := by
  constructor
  intro x y z
  unfold errLeP
  omega

/-- Strict `(line, column)` order, used to state the strict-ascending claim. -/
def errLtP (x y : Error) : Prop :=
  x.line < y.line ∨ (x.line = y.line ∧ x.column < y.column)

instance : DecidableRel errLtP := fun x y =>
  inferInstanceAs (Decidable (x.line < y.line ∨ (x.line = y.line ∧ x.column < y.column)))

/-- Modelled from the spec: `sortErrors` ("sorts errors by line and column in
the file" — its definition is outside the given sources) sorts each file's
error list ascending by `(line, column)`. -/
def sortErrors (m : List (String × List Error)) : List (String × List Error) :=
  m.map (fun p => (p.1, List.insertionSort errLeP p.2))

/-- The third loop of `Process`: per loaded package and file, refresh the
per-file context fields, walk the file's tree, and bump the file and line
metrics.  The ignore stack is *not* reset between files (the Go code assigns
every `Context` field except `Ignores`). -/
def scanPkgs (a : Analyzer) (pkgs : List Package) : Analyzer :=
  pkgs.foldl
    (fun acc pkg =>
      pkg.files.foldl
        (fun acc2 fu =>
          let acc3 := { acc2 with log := acc2.log ++ ["Checking file"] }
          let w := walk acc3 [] fu.root
          { w.1 with
              stats := { w.1.stats with
                          numFiles := w.1.stats.numFiles + 1
                          numLines := w.1.stats.numLines + fu.lineCount } })
        { acc with log := acc.log ++ ["Checking package: " ++ pkg.name] })
    a

/-- `Process`: collect packages from the given paths (phase 1), record and
sort loader diagnostics (phase 2), then scan every file of every package
(phase 3).  A `nil` return becomes `Except.ok` with the final analyzer. -/
def Analyzer.process (a : Analyzer) (env : String → PathOutcome) (paths : List String) :
    Except String Analyzer :=
  match collectPkgs a env paths with
  | .error e => .error e
  | .ok (a1, pkgs) =>
    let a2 := { a1 with errors := sortErrors (recordErrors a1.errors pkgs) }
    .ok (scanPkgs a2 pkgs)

/-- `Report`: the current issues, metrics and per-file errors. -/
def Analyzer.report (a : Analyzer) : List Issue × Metrics × List (String × List Error) :=
  (a.issues, a.stats, a.errors)

/-- `Reset`: replace the context, the issue list and the metrics. -/
def Analyzer.reset (a : Analyzer) : Analyzer :=
  { a with context := {}, issues := [], stats := {} }

/-! ### Specification-side functions used to state and prove the claims -/

/-- The directive `Visit` obtains for a node: the pair returned by `ignore`,
as a function of `ignoreNosec` and the node alone (the metrics side effect is
handled separately). -/
def nodeDirective (inosec : Bool) (n : Node) : List String × Bool :=
  if inosec then ([], false) else evalDirective n.comments

/-- The rule identifiers `Visit` invokes at a node when the merged ignore set
is `ign`: the registered rules minus the excluded ones, in registration
order. -/
def invokedSpec (rs : RuleSet) (ign : List String) (n : Node) : List String :=
  ((rs.registeredFor n.kind).filter (fun r => !(ign.contains r.id))).map (fun r => r.id)

mutual
/-- The visit list the walk produces, computed bottom-up from the walk root's
inherited ignore set alone: a pruned node contributes nothing, any other node
contributes itself (with the union set and the dispatched rules) followed by
its children's entries. -/
def traceSpec (inosec : Bool) (rs : RuleSet) (parent : List String) (addr : List Nat) :
    Node → List VisitEntry
  | Node.mk k cm cs =>
    let n := Node.mk k cm cs
    let d := nodeDirective inosec n
    if d.2 then []
    else
      let s := unionIgnores parent d.1
      ⟨addr, n, s, invokedSpec rs s n⟩ :: traceSpecList inosec rs s addr 0 cs
/-- `traceSpec` over a child list starting at document-order index `i`. -/
def traceSpecList (inosec : Bool) (rs : RuleSet) (parent : List String) (addr : List Nat)
    (i : Nat) : NodeList → List VisitEntry
  | .nil => []
  | .cons c cs =>
    traceSpec inosec rs parent (addr ++ [i]) c ++ traceSpecList inosec rs parent addr (i + 1) cs
end

/-- Descend a child-index path from a node, threading the union of ignore
sets: the node reached and the ignore set active there, or `none` when the
path leaves the tree or crosses a pruned (exclude-all) node. -/
def visitAt (inosec : Bool) : List String → Node → List Nat → Option (Node × List String)
  | parent, n, [] =>
    if (nodeDirective inosec n).2 then none
    else some (n, unionIgnores parent (nodeDirective inosec n).1)
  | parent, n, i :: rel =>
    if (nodeDirective inosec n).2 then none
    else
      match childAt n.children i with
      | none => none
      | some c => visitAt inosec (unionIgnores parent (nodeDirective inosec n).1) c rel

/-- Following the specification's words: a code of "one uppercase letter
followed by exactly three digits".  Used to state the directive-syntax claim
this development tests. -/
def isSpecCode (s : String) : Bool :=
  match s.toList with
  | [c, d1, d2, d3] => c.isUpper && d1.isDigit && d2.isDigit && d3.isDigit
  | _ => false

/-- What the code's pattern accepts: the literal letter `G` followed by
exactly three digits. -/
def isGCode (s : String) : Bool :=
  match s.toList with
  | [c, d1, d2, d3] => c == 'G' && d1.isDigit && d2.isDigit && d3.isDigit
  | _ => false

/-- Whether the text contains an occurrence of `G` followed by three digits —
a direct one-character-at-a-time scan, independent of `findCodes`. -/
def hasCode : List Char → Bool
  | [] => false
  | 'G' :: d1 :: d2 :: d3 :: rest =>
    (d1.isDigit && d2.isDigit && d3.isDigit) || hasCode (d1 :: d2 :: d3 :: rest)
  | _ :: rest => hasCode rest

/-- The log line `Process` prints for a path that does not exist. -/
def skipLine (p : String) : String :=
  "Skipping: " ++ p ++ ". Path doesn't exist."

/-- An analyzer with its log replaced. -/
def withLog (a : Analyzer) (lg : List String) : Analyzer :=
  { a with log := lg }

/-! ### Concrete fixtures for the witnesses and counterexamples -/

/-- A fresh analyzer over a configuration that leaves marker processing on. -/
def A0 : Analyzer := newAnalyzer { nosecGlobal := none }

/-- A builder that registers its rule for category 0 and never reports. -/
def cbuilder : RuleBuilder :=
  fun id _ => ({ id := id, run := fun _ => (none, none) }, [0])

/-- A builder family: register the built (never-reporting) rule for the one
given category. -/
def tableBuilder (k : Nat) : RuleBuilder :=
  fun id _ => ({ id := id, run := fun _ => (none, none) }, [k])

def exChild : Node := Node.mk 1 [] .nil

def exRoot : Node := Node.mk 0 ["#nosec G101"] (.cons exChild .nil)

/-- The two entries the walk of `exRoot` from `A0` records. -/
def eRootEntry : VisitEntry := ⟨[], exRoot, ["G101"], []⟩

def eChildEntry : VisitEntry := ⟨[0], exChild, ["G101"], []⟩

/-- A node with a bare exclude-all marker whose child carries its own
directive naming a specific code. -/
def allNode : Node := Node.mk 0 ["#nosec"] (.cons (Node.mk 1 ["#nosec G101"] .nil) .nil)

/-- A rule that always reports an issue. -/
def hitRule : Rule := { id := "G101", run := fun _ => (some ⟨"hit"⟩, none) }

/-- `A0` with `hitRule` registered for category 0. -/
def A3 : Analyzer := { A0 with ruleset := [(0, hitRule)] }

/-- A category-0 node suppressing exactly `hitRule`'s identifier. -/
def n3 : Node := Node.mk 0 ["#nosec G101"] .nil

/-- The single entry the walk of `n3` from `A3` records: `hitRule` is
registered for the node's category but suppressed, so nothing is invoked. -/
def e3Entry : VisitEntry := ⟨[], n3, ["G101"], []⟩

/-- What one path contributes to the log during `Process`'s first loop: the
skip line for a missing path, the import-directory line for a loading one,
nothing for a path whose resolution fails (the error aborts the loop). -/
def pathLog (env : String → PathOutcome) (p : String) : List String :=
  match env p with
  | .missing => [skipLine p]
  | .ok _ => ["Import directory: " ++ p]
  | _ => []

/-- The packages the first loop of `Process` accumulates from the given
paths, in path order: a missing path contributes none. -/
def pkgsOf (env : String → PathOutcome) : List String → List Package
  | [] => []
  | p :: rest =>
    match env p with
    | .ok pkgs => pkgs ++ pkgsOf env rest
    | _ => pkgsOf env rest

/-- A package with one (annotation-free) file of seven lines and no loader
diagnostics. -/
def goodPkg : Package := ⟨"gp", [⟨Node.mk 0 [] NodeList.nil, 7⟩], []⟩

/-- A loader environment with one loading path, one path whose import
resolution fails, and every other path missing. -/
def env4 : String → PathOutcome :=
  fun s =>
    if s == "bad" then .importError "boom"
    else if s == "good" then .ok [goodPkg]
    else .missing

/-- A loader environment producing one package with two diagnostics at the
same `(line, column)` position and no files. -/
def env3 : String → PathOutcome :=
  fun _ => .ok [⟨"pkg", [], [⟨"f", 5, 3, "x"⟩, ⟨"f", 5, 3, "y"⟩]⟩]

/-- The analyzer `Process` returns over `env3`. -/
def A8 : Analyzer :=
  match A0.process env3 ["p"] with
  | .ok x => x
  | .error _ => A0

/-- Lexicographic comparison of character lists. -/
def lexLeChars : List Char → List Char → Bool
  | [], _ => true
  | _ :: _, [] => false
  | c :: cs, d :: ds => if c = d then lexLeChars cs ds else decide (c < d)

/-- Lexicographic comparison of identifiers, character by character — the
"sorted by identifier" order of the specification, as an executable test. -/
def lexLe (s t : String) : Bool :=
  lexLeChars s.toList t.toList

/-! ### Lemmas about the directive parser -/

theorem findCodes_isGCode (l : List Char) : ∀ c ∈ findCodes l, isGCode c = true := by
  induction l using findCodes.induct with
  | case1 => simp [findCodes]
  | case2 d1 d2 d3 rest h ih =>
    intro c hc
    rw [findCodes, if_pos h] at hc
    rcases List.mem_cons.mp hc with hc | hc
    · subst hc
      simp only [isGCode, String.toList]
      simp [h]
    · exact ih c hc
  | case3 d1 d2 d3 rest h ih =>
    intro c hc
    rw [findCodes, if_neg h] at hc
    exact ih c hc
  | case4 c rest h ih =>
    have e1 : findCodes (c :: rest) = findCodes rest := by
      rw [findCodes]
      exact h
    intro x hx
    rw [e1] at hx
    exact ih x hx

theorem findCodes_eq_nil_iff (l : List Char) : findCodes l = [] ↔ hasCode l = false := by
  induction l using findCodes.induct with
  | case1 => simp [findCodes, hasCode]
  | case2 d1 d2 d3 rest h ih =>
    rw [findCodes, if_pos h, hasCode]
    simp [h]
  | case3 d1 d2 d3 rest h ih =>
    rw [findCodes, if_neg h, hasCode]
    simp only [Bool.or_eq_false_iff]
    constructor
    · intro hn
      exact ⟨by simpa using h, (ih.mp hn)⟩
    · intro hn
      exact ih.mpr hn.2
  | case4 c rest h ih =>
    have e1 : findCodes (c :: rest) = findCodes rest := by
      rw [findCodes]
      exact h
    have e2 : hasCode (c :: rest) = hasCode rest := by
      rw [hasCode]
      exact h
    rw [e1, e2]
    exact ih

theorem hasCode_iff (l : List Char) :
    hasCode l = true ↔
      ∃ pre d1 d2 d3 post, l = pre ++ 'G' :: d1 :: d2 :: d3 :: post ∧
        (d1.isDigit && d2.isDigit && d3.isDigit) = true := by
  induction l using hasCode.induct with
  | case1 =>
    rw [hasCode]
    simp
  | case2 d1 d2 d3 rest ih =>
    rw [hasCode]
    cases h : (d1.isDigit && d2.isDigit && d3.isDigit) with
    | true =>
      simp only [Bool.true_or, true_iff]
      exact ⟨[], d1, d2, d3, rest, rfl, h⟩
    | false =>
      simp only [Bool.false_or]
      rw [ih]
      constructor
      · rintro ⟨pre, e1, e2, e3, post, hl, hd⟩
        refine ⟨'G' :: pre, e1, e2, e3, post, ?_, hd⟩
        simp [hl]
      · rintro ⟨pre, e1, e2, e3, post, hl, hd⟩
        cases pre with
        | nil =>
          simp only [List.nil_append, List.cons.injEq] at hl
          obtain ⟨-, h1, h2, h3, -⟩ := hl
          subst h1; subst h2; subst h3
          rw [hd] at h
          cases h
        | cons x pre2 =>
          simp only [List.cons_append, List.cons.injEq] at hl
          exact ⟨pre2, e1, e2, e3, post, hl.2, hd⟩
  | case3 c rest h ih =>
    have e2 : hasCode (c :: rest) = hasCode rest := by
      rw [hasCode]
      exact h
    rw [e2, ih]
    constructor
    · rintro ⟨pre, e1, e2, e3, post, hl, hd⟩
      refine ⟨c :: pre, e1, e2, e3, post, ?_, hd⟩
      simp [hl]
    · rintro ⟨pre, e1, e2, e3, post, hl, hd⟩
      cases pre with
      | nil =>
        simp only [List.nil_append, List.cons.injEq] at hl
        exact absurd hl.2 (fun h2 => h e1 e2 e3 post hl.1 h2)
      | cons x pre2 =>
        simp only [List.cons_append, List.cons.injEq] at hl
        exact ⟨pre2, e1, e2, e3, post, hl.2, hd⟩

theorem firstMarkerGroup_eq_none (gs : List String) :
    firstMarkerGroup gs = none ↔ ∀ g ∈ gs, hasMarker g = false := by
  induction gs with
  | nil => simp [firstMarkerGroup]
  | cons g rest ih =>
    by_cases h : hasMarker g <;> simp [firstMarkerGroup, h, ih]

/-- C4: the claim's directive syntax fails on the code: in the comment
"G101 #nosec A123", the token "A123" — one uppercase letter and exactly three
digits, placed right after the marker — is not returned, while "G101", which
precedes the marker, is; the directive evaluates to (["G101"], false), not to
(["A123"], false). -/
theorem gosec_C4_cex :
    evalDirective ["G101 #nosec A123"] = (["G101"], false) ∧
    isSpecCode "A123" = true ∧
    ¬ ("A123" ∈ (evalDirective ["G101 #nosec A123"]).1) ∧
    ¬ evalDirective ["G101 #nosec A123"] = (["A123"], false) := by
  refine ⟨rfl, rfl, ?_, ?_⟩ <;> decide

/-- C4 (amended): if no attached comment contains the marker, no exclusions
result; otherwise the first marker-bearing comment is evaluated, and the
directive returns exactly the leftmost non-overlapping occurrences of the
letter `G` followed by exactly three digits found anywhere in that comment's
text, with `excludeAll = false`; `excludeAll = true` exactly when that
comment contains no such occurrence. -/
theorem gosec_C4_amended (gs : List String) :
    ((∀ g ∈ gs, hasMarker g = false) → evalDirective gs = ([], false)) ∧
    (∀ g, firstMarkerGroup gs = some g →
       evalDirective gs = (findCodes g.toList, (findCodes g.toList).isEmpty) ∧
       (∀ c ∈ (evalDirective gs).1, isGCode c = true) ∧
       ((evalDirective gs).2 = true ↔
         ¬ ∃ pre d1 d2 d3 post,
             g.toList = pre ++ 'G' :: d1 :: d2 :: d3 :: post ∧
             (d1.isDigit && d2.isDigit && d3.isDigit) = true)) := by
  constructor
  · intro hall
    unfold evalDirective
    rw [(firstMarkerGroup_eq_none gs).mpr hall]
  · intro g hg
    have heval : evalDirective gs = (findCodes g.toList, (findCodes g.toList).isEmpty) := by
      unfold evalDirective evalGroup
      simp only [hg]
      cases findCodes g.toList with
      | nil => rfl
      | cons x xs => rfl
    refine ⟨heval, ?_, ?_⟩
    · intro c hc
      rw [heval] at hc
      exact findCodes_isGCode g.toList c hc
    · rw [heval]
      show (findCodes g.toList).isEmpty = true ↔ _
      rw [← hasCode_iff, List.isEmpty_iff, findCodes_eq_nil_iff]
      cases hasCode g.toList <;> simp

/-- C4 (amended), applied at a concrete directive comment. -/
theorem gosec_C4_amended_witness :
    evalDirective ["#nosec G102 G103"] =
      (findCodes "#nosec G102 G103".toList, (findCodes "#nosec G102 G103".toList).isEmpty) ∧
    isGCode "G102" = true ∧
    ((evalDirective ["#nosec G102 G103"]).2 = true ↔
      ¬ ∃ pre d1 d2 d3 post,
          "#nosec G102 G103".toList = pre ++ 'G' :: d1 :: d2 :: d3 :: post ∧
          (d1.isDigit && d2.isDigit && d3.isDigit) = true) := by
  have h := (gosec_C4_amended ["#nosec G102 G103"]).2 "#nosec G102 G103" rfl
  exact ⟨h.1, h.2.1 "G102" (by rw [h.1]; decide), h.2.2⟩

/-- C6: whenever a marker-bearing comment group is attached to the node (and
marker processing is on), one call of `ignore` increments `NumNosec` by
exactly one, whatever codes the directive lists and whether or not it is
exclude-all; with no marker the metrics are unchanged. -/
theorem gosec_C6 (a : Analyzer) (n : Node) (h : a.ignoreNosec = false) :
    (∀ g, firstMarkerGroup n.comments = some g →
       (a.ignoreNode n).1.stats.numNosec = a.stats.numNosec + 1) ∧
    (firstMarkerGroup n.comments = none →
       (a.ignoreNode n).1.stats = a.stats) := by
  unfold Analyzer.ignoreNode
  rw [h]
  simp only [Bool.false_eq_true, if_false]
  constructor
  · intro g hg
    simp only [hg]
  · intro hg
    simp only [hg]

/-- C6, applied to a node annotated with a bare `#nosec`. -/
theorem gosec_C6_witness :
    (A0.ignoreNode allNode).1.stats.numNosec = A0.stats.numNosec + 1 :=
  (gosec_C6 A0 allNode rfl).1 "#nosec" rfl

/-- C9: `Reset` followed by `Report` yields an empty issue sequence and
metrics whose four counters are all zero. -/
theorem gosec_C9 (a : Analyzer) :
    a.reset.report.1 = [] ∧
    a.reset.report.2.1.numFiles = 0 ∧
    a.reset.report.2.1.numLines = 0 ∧
    a.reset.report.2.1.numNosec = 0 ∧
    a.reset.report.2.1.numFound = 0 :=
  ⟨rfl, rfl, rfl, rfl, rfl⟩

/-- C10: `Reset` replaces the context, issues and metrics, and leaves the
accumulated per-file error map — as returned by `Report` — the configuration,
the logger and the registered rule set unchanged. -/
theorem gosec_C10 (a : Analyzer) :
    a.reset.report.2.2 = a.report.2.2 ∧
    a.reset.errors = a.errors ∧
    a.reset.config = a.config ∧
    a.reset.log = a.log ∧
    a.reset.ruleset = a.ruleset ∧
    a.reset.ignoreNosec = a.ignoreNosec ∧
    a.reset.context = ({} : Context) ∧
    a.reset.issues = [] ∧
    a.reset.stats = ({} : Metrics) :=
  ⟨rfl, rfl, rfl, rfl, rfl, rfl, rfl, rfl, rfl⟩

/-! ### Rule registration -/

theorem loadRules_ruleset (defs : List (String × RuleBuilder)) : ∀ a : Analyzer,
    (a.loadRules defs).ruleset =
      a.ruleset ++ defs.flatMap
        (fun d => ((d.2 d.1 a.config).2).map (fun k => (k, (d.2 d.1 a.config).1))) ∧
    (a.loadRules defs).config = a.config := by
  induction defs with
  | nil =>
    intro a
    simp [Analyzer.loadRules]
  | cons d rest ih =>
    intro a
    have step : a.loadRules (d :: rest) =
        Analyzer.loadRules
          { a with ruleset := a.ruleset.register (d.2 d.1 a.config).1 (d.2 d.1 a.config).2 }
          rest := by
      simp [Analyzer.loadRules]
    obtain ⟨h1, h2⟩ :=
      ih { a with ruleset := a.ruleset.register (d.2 d.1 a.config).1 (d.2 d.1 a.config).2 }
    rw [step]
    refine ⟨?_, h2⟩
    rw [h1]
    simp [RuleSet.register, List.append_assoc]

theorem registeredFor_append (rs1 rs2 : RuleSet) (k : Nat) :
    RuleSet.registeredFor (rs1 ++ rs2) k =
      RuleSet.registeredFor rs1 k ++ RuleSet.registeredFor rs2 k := by
  simp [RuleSet.registeredFor]

theorem regFor_table (cfg : Config) (k : Nat) : ∀ tbl : List (String × Nat),
    (RuleSet.registeredFor
        ((tbl.map (fun t => (t.1, tableBuilder t.2))).flatMap
          (fun d => ((d.2 d.1 cfg).2).map (fun kk => (kk, (d.2 d.1 cfg).1)))) k).map
        (fun r => r.id)
      = (tbl.filter (fun t => t.2 == k)).map (fun t => t.1) := by
  intro tbl
  induction tbl with
  | nil => rfl
  | cons t rest ih =>
    rw [List.map_cons, List.flatMap_cons, registeredFor_append, List.map_append, ih,
      List.filter_cons]
    by_cases hk : (t.2 == k) = true
    · simp [tableBuilder, RuleSet.registeredFor, hk]
    · simp [tableBuilder, RuleSet.registeredFor, hk]

/-- C5: the claim fails on the code: `LoadRules` registers in the iteration
order of the rule-definition table, so the two iteration orders of the same
two-entry table produce different registration (hence dispatch) sequences,
and the first run is not in ascending identifier order. -/
theorem gosec_C5_cex :
    ((A0.loadRules [("G200", cbuilder), ("G100", cbuilder)]).ruleset.map (fun p => p.2.id)
        = ["G200", "G100"]) ∧
    ((A0.loadRules [("G100", cbuilder), ("G200", cbuilder)]).ruleset.map (fun p => p.2.id)
        = ["G100", "G200"]) ∧
    ¬ List.Chain' (fun x y => lexLe x y = true) ["G200", "G100"] ∧
    (["G200", "G100"] : List String) ≠ ["G100", "G200"] := by
  refine ⟨rfl, rfl, ?_, by decide⟩
  intro hs
  have h := (List.chain'_cons.mp hs).1
  revert h
  decide

/-- C5 (amended): `LoadRules` registers the rules in the iteration order of
the given definition table (for a Go map that order is not fixed and in
particular not sorted by identifier): for each category, the dispatch
sequence equals the table's iteration order restricted to the definitions
registering for that category; the result is a function of that iteration
order alone. -/
theorem gosec_C5_amend (cfg : Config) (tbl : List (String × Nat)) (k : Nat) :
    (RuleSet.registeredFor
        ((newAnalyzer cfg).loadRules (tbl.map (fun t => (t.1, tableBuilder t.2)))).ruleset
        k).map (fun r => r.id)
      = (tbl.filter (fun t => t.2 == k)).map (fun t => t.1) := by
  obtain ⟨h1, -⟩ :=
    loadRules_ruleset (tbl.map (fun t => (t.1, tableBuilder t.2))) (newAnalyzer cfg)
  rw [h1]
  rw [show (newAnalyzer cfg).ruleset = ([] : RuleSet) from rfl, List.nil_append]
  exact regFor_table cfg k tbl

/-! ### Process: path resolution and error collection -/

theorem collectPkgs_clean (env : String → PathOutcome) : ∀ (paths : List String) (a : Analyzer),
    (∀ q ∈ paths, env q = PathOutcome.missing ∨ ∃ pkgs, env q = PathOutcome.ok pkgs) →
    collectPkgs a env paths =
      Except.ok (withLog a (a.log ++ paths.flatMap (pathLog env)), pkgsOf env paths) := by
  intro paths
  induction paths with
  | nil =>
    intro a h
    show Except.ok (a, []) = _
    rw [List.flatMap_nil, List.append_nil]
    rfl
  | cons q rest ih =>
    intro a h
    rcases h q (List.mem_cons_self q rest) with hq | ⟨pkgs, hq⟩
    · rw [collectPkgs, hq]
      show collectPkgs { a with log := a.log ++ [skipLine q] } env rest = _
      rw [ih { a with log := a.log ++ [skipLine q] }
        (fun x hx => h x (List.mem_cons_of_mem q hx))]
      have hl : pathLog env q = [skipLine q] := by rw [pathLog, hq]
      have hp : pkgsOf env (q :: rest) = pkgsOf env rest := by rw [pkgsOf, hq]
      rw [List.flatMap_cons, hl, hp,
        show a.log ++ ([skipLine q] ++ rest.flatMap (pathLog env)) =
          (a.log ++ [skipLine q]) ++ rest.flatMap (pathLog env) from
          (List.append_assoc _ _ _).symm]
      rfl
    · rw [collectPkgs, hq]
      rw [ih { a with log := a.log ++ ["Import directory: " ++ q] }
        (fun x hx => h x (List.mem_cons_of_mem q hx))]
      have hl : pathLog env q = ["Import directory: " ++ q] := by rw [pathLog, hq]
      have hp : pkgsOf env (q :: rest) = pkgs ++ pkgsOf env rest := by rw [pkgsOf, hq]
      rw [List.flatMap_cons, hl, hp,
        show a.log ++ (["Import directory: " ++ q] ++ rest.flatMap (pathLog env)) =
          (a.log ++ ["Import directory: " ++ q]) ++ rest.flatMap (pathLog env) from
          (List.append_assoc _ _ _).symm]
      rfl

theorem collectPkgs_fail (env : String → PathOutcome) (e : String) : ∀ (pre : List String)
    (a : Analyzer) (p : String) (post : List String),
    (∀ q ∈ pre, env q = PathOutcome.missing ∨ ∃ pkgs, env q = PathOutcome.ok pkgs) →
    (env p = PathOutcome.importError e ∨ env p = PathOutcome.loadError e) →
    collectPkgs a env (pre ++ p :: post) = Except.error e := by
  intro pre
  induction pre with
  | nil =>
    intro a p post hpre hp
    rw [List.nil_append]
    rcases hp with hp | hp <;> rw [collectPkgs, hp]
  | cons q pre2 ih =>
    intro a p post hpre hp
    rcases hpre q (List.mem_cons_self q pre2) with hq | ⟨pkgs, hq⟩
    · rw [List.cons_append, collectPkgs, hq]
      show collectPkgs { a with log := a.log ++ [skipLine q] } env (pre2 ++ p :: post) = _
      exact ih { a with log := a.log ++ [skipLine q] } p post
        (fun x hx => hpre x (List.mem_cons_of_mem q hx)) hp
    · rw [List.cons_append, collectPkgs, hq]
      rw [ih { a with log := a.log ++ ["Import directory: " ++ q] } p post
        (fun x hx => hpre x (List.mem_cons_of_mem q hx)) hp]

/-- C7: over any prefix of paths each of which is either missing from disk
(skipped with its log line) or loads successfully, `Process`: on a path
whose import resolution or package load fails, returns that error at once,
never reaching the remaining paths; and when every path is missing or loads, it
returns no error — the result is exactly the scan of the packages collected
from the loading paths in path order, the missing paths having contributed
nothing but their skip log lines. -/
theorem gosec_C7 (a : Analyzer) (env : String → PathOutcome) (pre : List String) (p : String)
    (post : List String) (e : String)
    (hpre : ∀ q ∈ pre, env q = PathOutcome.missing ∨ ∃ pkgs, env q = PathOutcome.ok pkgs) :
    ((env p = PathOutcome.importError e ∨ env p = PathOutcome.loadError e) →
       a.process env (pre ++ p :: post) = Except.error e) ∧
    ((∀ q ∈ p :: post, env q = PathOutcome.missing ∨ ∃ pkgs, env q = PathOutcome.ok pkgs) →
       a.process env (pre ++ p :: post) =
         Except.ok (scanPkgs
           { withLog a (a.log ++ (pre ++ p :: post).flatMap (pathLog env)) with
               errors := sortErrors (recordErrors a.errors (pkgsOf env (pre ++ p :: post))) }
           (pkgsOf env (pre ++ p :: post)))) := by
  constructor
  · intro hp
    unfold Analyzer.process
    rw [collectPkgs_fail env e pre a p post hpre hp]
  · intro hall
    have h2 : ∀ q ∈ pre ++ p :: post,
        env q = PathOutcome.missing ∨ ∃ pkgs, env q = PathOutcome.ok pkgs := by
      intro q hq
      rcases List.mem_append.mp hq with hq | hq
      · exact hpre q hq
      · exact hall q hq
    unfold Analyzer.process
    rw [collectPkgs_clean env (pre ++ p :: post) a h2]
    rfl

/-- C7, applied to concrete paths: a loading path and a missing path followed
by a failing import abort with that error; a missing path next to a loading
path yields no error, the loaded package being scanned and the missing path
merely logged. -/
theorem gosec_C7_witness :
    (A0.process env4 ["good", "miss", "bad", "x"] = Except.error "boom") ∧
    (A0.process env4 ["miss", "good"] =
      Except.ok (scanPkgs
        { withLog A0 (A0.log ++ (["miss", "good"] : List String).flatMap (pathLog env4)) with
            errors := sortErrors (recordErrors A0.errors (pkgsOf env4 ["miss", "good"])) }
        (pkgsOf env4 ["miss", "good"]))) := by
  have h1 : ∀ q ∈ (["good", "miss"] : List String),
      env4 q = PathOutcome.missing ∨ ∃ pkgs, env4 q = PathOutcome.ok pkgs := by
    intro q hq
    rcases List.mem_cons.mp hq with hq | hq
    · subst hq
      exact Or.inr ⟨[goodPkg], rfl⟩
    · rw [List.mem_singleton] at hq
      subst hq
      exact Or.inl rfl
  have hm : ∀ q ∈ (["miss"] : List String),
      env4 q = PathOutcome.missing ∨ ∃ pkgs, env4 q = PathOutcome.ok pkgs := by
    intro q hq
    rw [List.mem_singleton] at hq
    subst hq
    exact Or.inl rfl
  have hg : ∀ q ∈ ("good" :: ([] : List String)),
      env4 q = PathOutcome.missing ∨ ∃ pkgs, env4 q = PathOutcome.ok pkgs := by
    intro q hq
    rw [List.mem_singleton] at hq
    subst hq
    exact Or.inr ⟨[goodPkg], rfl⟩
  exact ⟨(gosec_C7 A0 env4 ["good", "miss"] "bad" ["x"] "boom" h1).1 (Or.inl rfl),
         (gosec_C7 A0 env4 ["miss"] "good" [] "" hm).2 hg⟩

/-! ### Dispatch and ignore lemmas -/

theorem dispatchStep_fields (r : Rule) (n : Node) (st : Analyzer × List String) :
    (dispatchStep r n st).1.ignoreNosec = st.1.ignoreNosec ∧
    (dispatchStep r n st).1.ruleset = st.1.ruleset ∧
    (dispatchStep r n st).1.context = st.1.context ∧
    (dispatchStep r n st).1.config = st.1.config ∧
    (dispatchStep r n st).1.errors = st.1.errors ∧
    (dispatchStep r n st).1.stats.numNosec = st.1.stats.numNosec := by
  unfold dispatchStep
  rcases (r.run n).2 with - | e <;> rcases (r.run n).1 with - | iss <;>
    exact ⟨rfl, rfl, rfl, rfl, rfl, rfl⟩

theorem dispatchStep_invoked (r : Rule) (n : Node) (st : Analyzer × List String) :
    (dispatchStep r n st).2 = st.2 ++ [r.id] := by
  unfold dispatchStep
  rcases (r.run n).2 with - | e <;> rcases (r.run n).1 with - | iss <;> rfl

theorem dispatchStep_issues (r : Rule) (n : Node) (st : Analyzer × List String) :
    (dispatchStep r n st).1.issues = st.1.issues ++ ((r.run n).1.toList) := by
  unfold dispatchStep
  rcases (r.run n).2 with - | e <;> rcases (r.run n).1 with - | iss <;> simp

theorem dispatchList_state (ign : List String) (n : Node) :
    ∀ (rules : List Rule) (st : Analyzer × List String),
      (dispatchList ign n rules st).1.ignoreNosec = st.1.ignoreNosec ∧
      (dispatchList ign n rules st).1.ruleset = st.1.ruleset ∧
      (dispatchList ign n rules st).1.context = st.1.context ∧
      (dispatchList ign n rules st).1.config = st.1.config ∧
      (dispatchList ign n rules st).1.errors = st.1.errors ∧
      (dispatchList ign n rules st).1.stats.numNosec = st.1.stats.numNosec := by
  intro rules
  induction rules with
  | nil =>
    intro st
    exact ⟨rfl, rfl, rfl, rfl, rfl, rfl⟩
  | cons r rest ih =>
    intro st
    rw [dispatchList]
    by_cases hc : ign.contains r.id
    · rw [if_pos hc]
      exact ih st
    · rw [if_neg hc]
      obtain ⟨k1, k2, k3, k4, k5, k6⟩ := ih (dispatchStep r n st)
      obtain ⟨m1, m2, m3, m4, m5, m6⟩ := dispatchStep_fields r n st
      exact ⟨k1.trans m1, k2.trans m2, k3.trans m3, k4.trans m4, k5.trans m5, k6.trans m6⟩

theorem dispatchList_invoked (ign : List String) (n : Node) :
    ∀ (rules : List Rule) (st : Analyzer × List String),
      (dispatchList ign n rules st).2 =
        st.2 ++ (rules.filter (fun r => !(ign.contains r.id))).map (fun r => r.id) := by
  intro rules
  induction rules with
  | nil =>
    intro st
    simp [dispatchList]
  | cons r rest ih =>
    intro st
    rw [dispatchList]
    by_cases hc : r.id ∈ ign
    · have hcb : ign.contains r.id = true := by simpa using hc
      have hfc : List.filter (fun r2 => !(ign.contains r2.id)) (r :: rest) =
          List.filter (fun r2 => !(ign.contains r2.id)) rest := by
        rw [List.filter_cons, hcb]
        simp
      rw [if_pos hcb, hfc]
      exact ih st
    · have hcb : ign.contains r.id = false := by simpa using hc
      have hfc : List.filter (fun r2 => !(ign.contains r2.id)) (r :: rest) =
          r :: List.filter (fun r2 => !(ign.contains r2.id)) rest := by
        rw [List.filter_cons, hcb]
        simp
      rw [if_neg (by rw [hcb]; simp), hfc]
      rw [ih (dispatchStep r n st), dispatchStep_invoked]
      simp

theorem dispatchList_issues (ign : List String) (n : Node) :
    ∀ (rules : List Rule) (st : Analyzer × List String),
      (dispatchList ign n rules st).1.issues =
        st.1.issues ++
          (rules.filter (fun r => !(ign.contains r.id))).flatMap (fun r => (r.run n).1.toList) := by
  intro rules
  induction rules with
  | nil =>
    intro st
    simp [dispatchList]
  | cons r rest ih =>
    intro st
    rw [dispatchList]
    by_cases hc : r.id ∈ ign
    · have hcb : ign.contains r.id = true := by simpa using hc
      have hfc : List.filter (fun r2 => !(ign.contains r2.id)) (r :: rest) =
          List.filter (fun r2 => !(ign.contains r2.id)) rest := by
        rw [List.filter_cons, hcb]
        simp
      rw [if_pos hcb, hfc]
      exact ih st
    · have hcb : ign.contains r.id = false := by simpa using hc
      have hfc : List.filter (fun r2 => !(ign.contains r2.id)) (r :: rest) =
          r :: List.filter (fun r2 => !(ign.contains r2.id)) rest := by
        rw [List.filter_cons, hcb]
        simp
      rw [if_neg (by rw [hcb]; simp), hfc]
      rw [ih (dispatchStep r n st), dispatchStep_issues]
      simp

theorem ignoreNode_fst (a : Analyzer) (n : Node) :
    (a.ignoreNode n).1 = a ∨
    (a.ignoreNode n).1 = { a with stats := { a.stats with numNosec := a.stats.numNosec + 1 } } := by
  unfold Analyzer.ignoreNode
  cases h : a.ignoreNosec
  · simp only [Bool.false_eq_true, if_false]
    cases hm : firstMarkerGroup n.comments with
    | none => exact Or.inl rfl
    | some g => exact Or.inr rfl
  · exact Or.inl (by rw [if_pos rfl])

theorem ignoreNode_snd (a : Analyzer) (n : Node) :
    (a.ignoreNode n).2 = nodeDirective a.ignoreNosec n := by
  unfold Analyzer.ignoreNode nodeDirective evalDirective
  cases h : a.ignoreNosec
  · simp only [Bool.false_eq_true, if_false]
    cases hm : firstMarkerGroup n.comments with
    | none => rfl
    | some g => rfl
  · simp only [if_true]

/-! ### Traversal state lemmas -/

theorem dispatchNode_state (b : Analyzer) (ign : List String) (n : Node) :
    (dispatchNode b ign n).1.ignoreNosec = b.ignoreNosec ∧
    (dispatchNode b ign n).1.ruleset = b.ruleset ∧
    (dispatchNode b ign n).1.context = b.context ∧
    (dispatchNode b ign n).1.config = b.config ∧
    (dispatchNode b ign n).1.errors = b.errors ∧
    (dispatchNode b ign n).1.stats.numNosec = b.stats.numNosec :=
  dispatchList_state ign n (b.ruleset.registeredFor n.kind) (b, [])

theorem popIgnores_fields (b : Analyzer) :
    (popIgnores b).ignoreNosec = b.ignoreNosec ∧
    (popIgnores b).ruleset = b.ruleset ∧
    (popIgnores b).config = b.config ∧
    (popIgnores b).errors = b.errors ∧
    (popIgnores b).issues = b.issues ∧
    (popIgnores b).log = b.log ∧
    (popIgnores b).stats = b.stats := by
  unfold popIgnores
  cases b.context.ignores <;> exact ⟨rfl, rfl, rfl, rfl, rfl, rfl, rfl⟩

theorem popIgnores_context (b : Analyzer) (s : List String) (rest : List (List String))
    (h : b.context.ignores = s :: rest) : (popIgnores b).context.ignores = rest := by
  unfold popIgnores
  rw [h]

/-- `walk` at a node, as an explicit equation over the result of `ignore`. -/
theorem walk_eq (a : Analyzer) (addr : List Nat) (k : Nat) (cm : List String) (cs : NodeList)
    (a1 : Analyzer) (codes : List String) (all : Bool)
    (hstep : a.ignoreNode (Node.mk k cm cs) = (a1, (codes, all))) :
    walk a addr (Node.mk k cm cs) =
      if all then (a1, [])
      else
        (popIgnores
            (walkChildren
              (dispatchNode (pushIgnores a1 (unionIgnores (a1.context.ignores.headD []) codes))
                (unionIgnores (a1.context.ignores.headD []) codes) (Node.mk k cm cs)).1
              addr 0 cs).1,
         ⟨addr, Node.mk k cm cs, unionIgnores (a1.context.ignores.headD []) codes,
          (dispatchNode (pushIgnores a1 (unionIgnores (a1.context.ignores.headD []) codes))
            (unionIgnores (a1.context.ignores.headD []) codes) (Node.mk k cm cs)).2⟩ ::
         (walkChildren
           (dispatchNode (pushIgnores a1 (unionIgnores (a1.context.ignores.headD []) codes))
             (unionIgnores (a1.context.ignores.headD []) codes) (Node.mk k cm cs)).1
           addr 0 cs).2) := by
  rw [walk, hstep]

theorem walkChildren_nil (a : Analyzer) (addr : List Nat) (i : Nat) :
    walkChildren a addr i NodeList.nil = (a, []) := rfl

theorem walkChildren_cons (a : Analyzer) (addr : List Nat) (i : Nat) (c : Node) (cs : NodeList) :
    walkChildren a addr i (NodeList.cons c cs) =
      ((walkChildren (walk a (addr ++ [i]) c).1 addr (i + 1) cs).1,
       (walk a (addr ++ [i]) c).2 ++ (walkChildren (walk a (addr ++ [i]) c).1 addr (i + 1) cs).2) :=
  rfl

mutual
theorem walk_preserves (a : Analyzer) (addr : List Nat) (n : Node) :
    (walk a addr n).1.ignoreNosec = a.ignoreNosec ∧
    (walk a addr n).1.ruleset = a.ruleset ∧
    (walk a addr n).1.context = a.context ∧
    (walk a addr n).1.config = a.config ∧
    (walk a addr n).1.errors = a.errors := by
  cases n with
  | mk k cm cs =>
    rcases hstep : a.ignoreNode (Node.mk k cm cs) with ⟨a1, codes, all⟩
    have ha1 : a1 = a ∨
        a1 = { a with stats := { a.stats with numNosec := a.stats.numNosec + 1 } } := by
      have hfst := ignoreNode_fst a (Node.mk k cm cs)
      rw [hstep] at hfst
      exact hfst
    have h5 : a1.ignoreNosec = a.ignoreNosec ∧ a1.ruleset = a.ruleset ∧
        a1.context = a.context ∧ a1.config = a.config ∧ a1.errors = a.errors := by
      rcases ha1 with h | h <;> rw [h] <;> exact ⟨rfl, rfl, rfl, rfl, rfl⟩
    rw [walk_eq a addr k cm cs a1 codes all hstep]
    cases all with
    | true =>
      rw [if_pos rfl]
      exact h5
    | false =>
      rw [if_neg Bool.false_ne_true]
      have hdn := dispatchNode_state (pushIgnores a1 (unionIgnores (a1.context.ignores.headD []) codes))
        (unionIgnores (a1.context.ignores.headD []) codes) (Node.mk k cm cs)
      have hwc := walkChildren_preserves
        (dispatchNode (pushIgnores a1 (unionIgnores (a1.context.ignores.headD []) codes))
          (unionIgnores (a1.context.ignores.headD []) codes) (Node.mk k cm cs)).1
        addr 0 cs
      have hpop := popIgnores_fields
        (walkChildren
          (dispatchNode (pushIgnores a1 (unionIgnores (a1.context.ignores.headD []) codes))
            (unionIgnores (a1.context.ignores.headD []) codes) (Node.mk k cm cs)).1
          addr 0 cs).1
      refine ⟨hpop.1.trans (hwc.1.trans (hdn.1.trans h5.1)),
              hpop.2.1.trans (hwc.2.1.trans (hdn.2.1.trans h5.2.1)), ?_,
              hpop.2.2.1.trans (hwc.2.2.2.1.trans (hdn.2.2.2.1.trans h5.2.2.2.1)),
              hpop.2.2.2.1.trans (hwc.2.2.2.2.trans (hdn.2.2.2.2.1.trans h5.2.2.2.2))⟩
      have hcw : (walkChildren
          (dispatchNode (pushIgnores a1 (unionIgnores (a1.context.ignores.headD []) codes))
            (unionIgnores (a1.context.ignores.headD []) codes) (Node.mk k cm cs)).1
          addr 0 cs).1.context =
          { ignores := unionIgnores (a1.context.ignores.headD []) codes :: a1.context.ignores } :=
        hwc.2.2.1.trans hdn.2.2.1
      have hig := congrArg Context.ignores hcw
      have hpc := popIgnores_context _ _ _ hig
      have he : (popIgnores
          (walkChildren
            (dispatchNode (pushIgnores a1 (unionIgnores (a1.context.ignores.headD []) codes))
              (unionIgnores (a1.context.ignores.headD []) codes) (Node.mk k cm cs)).1
            addr 0 cs).1).context =
          { ignores := (popIgnores
            (walkChildren
              (dispatchNode (pushIgnores a1 (unionIgnores (a1.context.ignores.headD []) codes))
                (unionIgnores (a1.context.ignores.headD []) codes) (Node.mk k cm cs)).1
              addr 0 cs).1).context.ignores } := rfl
      rw [he, hpc, congrArg Context.ignores h5.2.2.1]
theorem walkChildren_preserves (a : Analyzer) (addr : List Nat) (i : Nat) (cs : NodeList) :
    (walkChildren a addr i cs).1.ignoreNosec = a.ignoreNosec ∧
    (walkChildren a addr i cs).1.ruleset = a.ruleset ∧
    (walkChildren a addr i cs).1.context = a.context ∧
    (walkChildren a addr i cs).1.config = a.config ∧
    (walkChildren a addr i cs).1.errors = a.errors := by
  cases cs with
  | nil => exact ⟨rfl, rfl, rfl, rfl, rfl⟩
  | cons c cs2 =>
    rw [walkChildren_cons]
    have hw := walk_preserves a (addr ++ [i]) c
    have hwc := walkChildren_preserves (walk a (addr ++ [i]) c).1 addr (i + 1) cs2
    exact ⟨hwc.1.trans hw.1, hwc.2.1.trans hw.2.1, hwc.2.2.1.trans hw.2.2.1,
           hwc.2.2.2.1.trans hw.2.2.2.1, hwc.2.2.2.2.trans hw.2.2.2.2⟩
end

/-! ### Sorting of the error map -/

theorem scanPkgs_errors (pkgs : List Package) : ∀ a : Analyzer,
    (scanPkgs a pkgs).errors = a.errors := by
  induction pkgs with
  | nil =>
    intro a
    rfl
  | cons pkg rest ih =>
    intro a
    have hfile : ∀ (fus : List FileUnit) (b : Analyzer),
        (fus.foldl
          (fun acc2 fu =>
            { (walk { acc2 with log := acc2.log ++ ["Checking file"] } [] fu.root).1 with
                stats := { (walk { acc2 with log := acc2.log ++ ["Checking file"] } [] fu.root).1.stats with
                            numFiles := (walk { acc2 with log := acc2.log ++ ["Checking file"] } [] fu.root).1.stats.numFiles + 1
                            numLines := (walk { acc2 with log := acc2.log ++ ["Checking file"] } [] fu.root).1.stats.numLines + fu.lineCount } })
          b).errors = b.errors := by
      intro fus
      induction fus with
      | nil =>
        intro b
        rfl
      | cons fu rest2 ih2 =>
        intro b
        rw [List.foldl_cons]
        rw [ih2]
        exact (walk_preserves { b with log := b.log ++ ["Checking file"] } [] fu.root).2.2.2.2
    rw [scanPkgs, List.foldl_cons, ← scanPkgs]
    rw [ih]
    exact hfile pkg.files { a with log := a.log ++ ["Checking package: " ++ pkg.name] }

theorem sortErrors_mem (m : List (String × List Error)) (f : String) (es : List Error)
    (h : (f, es) ∈ sortErrors m) : ∃ es0, es = List.insertionSort errLeP es0 := by
  unfold sortErrors at h
  obtain ⟨p, -, hp⟩ := List.mem_map.mp h
  exact ⟨p.2, (congrArg Prod.snd hp).symm⟩

/-- C8: the claim fails on the code: two loader diagnostics at the same
`(line, column)` of the same file are both kept, so the sequence `Report`
exposes for that file is not strictly ascending. -/
theorem gosec_C8_cex :
    A0.process env3 ["p"] = Except.ok A8 ∧
    A8.report.2.2 = [("f", [⟨5, 3, "x"⟩, ⟨5, 3, "y"⟩])] ∧
    ¬ List.Chain' errLtP [(⟨5, 3, "x"⟩ : Error), ⟨5, 3, "y"⟩] := by
  refine ⟨rfl, rfl, ?_⟩
  intro h
  exact absurd (List.chain'_cons.mp h).1 (by decide)

/-- C8 (amended): after a `Process` call that returns no error, every file's
error sequence in the report is sorted non-decreasingly by `(line, column)`;
equal positions may repeat, so the order is not strict in general. -/
theorem gosec_C8_amend (a : Analyzer) (env : String → PathOutcome) (paths : List String)
    (a2 : Analyzer) (f : String) (es : List Error)
    (h1 : a.process env paths = Except.ok a2)
    (h2 : (f, es) ∈ a2.report.2.2) :
    List.Pairwise errLeP es := by
  unfold Analyzer.process at h1
  cases hc : collectPkgs a env paths with
  | error e =>
    rw [hc] at h1
    cases h1
  | ok pr =>
    obtain ⟨a1, pkgs⟩ := pr
    rw [hc] at h1
    injection h1 with ha2
    have herr : a2.errors = sortErrors (recordErrors a1.errors pkgs) := by
      rw [← ha2]
      exact scanPkgs_errors pkgs _
    rw [show a2.report.2.2 = a2.errors from rfl, herr] at h2
    obtain ⟨es0, hes⟩ := sortErrors_mem _ f es h2
    rw [hes]
    exact List.sorted_insertionSort errLeP es0

/-- C8 (amended), applied to the concrete scan of `env3`. -/
theorem gosec_C8_amend_witness :
    List.Pairwise errLeP [(⟨5, 3, "x"⟩ : Error), ⟨5, 3, "y"⟩] :=
  gosec_C8_amend A0 env3 ["p"] A8 "f" [⟨5, 3, "x"⟩, ⟨5, 3, "y"⟩] rfl
    (by rw [show A8.report.2.2 = [("f", [⟨5, 3, "x"⟩, ⟨5, 3, "y"⟩])] from rfl]
        exact List.mem_singleton.mpr rfl)

/-! ### The visit trace -/

theorem traceSpec_eq (inosec : Bool) (rs : RuleSet) (parent : List String) (addr : List Nat)
    (k : Nat) (cm : List String) (cs : NodeList) :
    traceSpec inosec rs parent addr (Node.mk k cm cs) =
      if (nodeDirective inosec (Node.mk k cm cs)).2 then []
      else
        ⟨addr, Node.mk k cm cs,
         unionIgnores parent (nodeDirective inosec (Node.mk k cm cs)).1,
         invokedSpec rs (unionIgnores parent (nodeDirective inosec (Node.mk k cm cs)).1)
           (Node.mk k cm cs)⟩ ::
        traceSpecList inosec rs
          (unionIgnores parent (nodeDirective inosec (Node.mk k cm cs)).1) addr 0 cs := rfl

theorem traceSpecList_cons (inosec : Bool) (rs : RuleSet) (parent : List String)
    (addr : List Nat) (i : Nat) (c : Node) (cs : NodeList) :
    traceSpecList inosec rs parent addr i (NodeList.cons c cs) =
      traceSpec inosec rs parent (addr ++ [i]) c ++
        traceSpecList inosec rs parent addr (i + 1) cs := rfl

mutual
theorem walk_trace (a : Analyzer) (addr : List Nat) (n : Node) :
    (walk a addr n).2 =
      traceSpec a.ignoreNosec a.ruleset (a.context.ignores.headD []) addr n := by
  cases n with
  | mk k cm cs =>
    rcases hstep : a.ignoreNode (Node.mk k cm cs) with ⟨a1, codes, all⟩
    have hsnd : nodeDirective a.ignoreNosec (Node.mk k cm cs) = (codes, all) := by
      have h := ignoreNode_snd a (Node.mk k cm cs)
      rw [hstep] at h
      exact h.symm
    have ha1 : a1 = a ∨
        a1 = { a with stats := { a.stats with numNosec := a.stats.numNosec + 1 } } := by
      have hfst := ignoreNode_fst a (Node.mk k cm cs)
      rw [hstep] at hfst
      exact hfst
    have ha1f : a1.context = a.context ∧ a1.ruleset = a.ruleset ∧
        a1.ignoreNosec = a.ignoreNosec := by
      rcases ha1 with h | h <;> rw [h] <;> exact ⟨rfl, rfl, rfl⟩
    rw [walk_eq a addr k cm cs a1 codes all hstep, traceSpec_eq, hsnd]
    cases all with
    | true =>
      rw [if_pos rfl, if_pos rfl]
    | false =>
      rw [if_neg Bool.false_ne_true, if_neg Bool.false_ne_true]
      have hinv : (dispatchNode
          (pushIgnores a1 (unionIgnores (a1.context.ignores.headD []) codes))
          (unionIgnores (a1.context.ignores.headD []) codes) (Node.mk k cm cs)).2 =
          invokedSpec a.ruleset (unionIgnores (a1.context.ignores.headD []) codes)
            (Node.mk k cm cs) := by
        unfold dispatchNode invokedSpec
        rw [dispatchList_invoked]
        rw [List.nil_append]
        rw [show (pushIgnores a1 (unionIgnores (a1.context.ignores.headD []) codes)).ruleset
            = a1.ruleset from rfl, ha1f.2.1]
      have hds := dispatchNode_state
        (pushIgnores a1 (unionIgnores (a1.context.ignores.headD []) codes))
        (unionIgnores (a1.context.ignores.headD []) codes) (Node.mk k cm cs)
      have hch : (walkChildren (dispatchNode
          (pushIgnores a1 (unionIgnores (a1.context.ignores.headD []) codes))
          (unionIgnores (a1.context.ignores.headD []) codes) (Node.mk k cm cs)).1
          addr 0 cs).2 =
          traceSpecList a.ignoreNosec a.ruleset
            (unionIgnores (a1.context.ignores.headD []) codes) addr 0 cs := by
        rw [walkChildren_trace]
        have hctx : (dispatchNode
            (pushIgnores a1 (unionIgnores (a1.context.ignores.headD []) codes))
            (unionIgnores (a1.context.ignores.headD []) codes) (Node.mk k cm cs)).1.context.ignores
            = unionIgnores (a1.context.ignores.headD []) codes :: a1.context.ignores :=
          congrArg Context.ignores hds.2.2.1
        rw [hctx]
        have hino : (dispatchNode
            (pushIgnores a1 (unionIgnores (a1.context.ignores.headD []) codes))
            (unionIgnores (a1.context.ignores.headD []) codes)
            (Node.mk k cm cs)).1.ignoreNosec = a.ignoreNosec :=
          hds.1.trans ha1f.2.2
        have hrs : (dispatchNode
            (pushIgnores a1 (unionIgnores (a1.context.ignores.headD []) codes))
            (unionIgnores (a1.context.ignores.headD []) codes)
            (Node.mk k cm cs)).1.ruleset = a.ruleset :=
          hds.2.1.trans ha1f.2.1
        rw [hino, hrs]
        rfl
      rw [hinv, hch, ha1f.1]
theorem walkChildren_trace (a : Analyzer) (addr : List Nat) (i : Nat) (cs : NodeList) :
    (walkChildren a addr i cs).2 =
      traceSpecList a.ignoreNosec a.ruleset (a.context.ignores.headD []) addr i cs := by
  cases cs with
  | nil => rfl
  | cons c cs2 =>
    rw [walkChildren_cons, traceSpecList_cons]
    have hw := walk_trace a (addr ++ [i]) c
    have hwc := walkChildren_trace (walk a (addr ++ [i]) c).1 addr (i + 1) cs2
    have hp := walk_preserves a (addr ++ [i]) c
    show (walk a (addr ++ [i]) c).2 ++
        (walkChildren (walk a (addr ++ [i]) c).1 addr (i + 1) cs2).2 = _
    rw [hw, hwc, hp.1, hp.2.1, hp.2.2.1]
end

/-! ### The active set along a path -/

theorem mem_unionIgnores (x : String) (base codes : List String) :
    x ∈ unionIgnores base codes ↔ x ∈ base ∨ x ∈ codes := by
  unfold unionIgnores
  rw [List.mem_append]
  constructor
  · rintro (h | h)
    · exact Or.inl h
    · exact Or.inr (List.mem_filter.mp h).1
  · rintro (h | h)
    · exact Or.inl h
    · by_cases hb : x ∈ base
      · exact Or.inl hb
      · refine Or.inr (List.mem_filter.mpr ⟨h, ?_⟩)
        have hc : base.contains x = false := by
          cases hv : base.contains x
          · rfl
          · exact absurd (List.mem_of_elem_eq_true hv) hb
        rw [hc]
        rfl

theorem visitAt_nil_eq (inosec : Bool) (parent : List String) (n : Node)
    (hd : (nodeDirective inosec n).2 = false) :
    visitAt inosec parent n [] =
      some (n, unionIgnores parent (nodeDirective inosec n).1) := by
  rw [visitAt, hd]
  rfl

theorem visitAt_nil_prune (inosec : Bool) (parent : List String) (n : Node)
    (hd : (nodeDirective inosec n).2 = true) :
    visitAt inosec parent n [] = none := by
  rw [visitAt, hd]
  rfl

theorem visitAt_cons_prune (inosec : Bool) (parent : List String) (n : Node) (i : Nat)
    (rel : List Nat) (hd : (nodeDirective inosec n).2 = true) :
    visitAt inosec parent n (i :: rel) = none := by
  rw [visitAt, hd]
  rfl

theorem visitAt_cons_none (inosec : Bool) (parent : List String) (n : Node) (i : Nat)
    (rel : List Nat) (hd : (nodeDirective inosec n).2 = false)
    (hc : childAt n.children i = none) :
    visitAt inosec parent n (i :: rel) = none := by
  rw [visitAt, hd, hc]
  rfl

theorem visitAt_cons_some (inosec : Bool) (parent : List String) (n : Node) (i : Nat)
    (rel : List Nat) (c : Node) (hd : (nodeDirective inosec n).2 = false)
    (hc : childAt n.children i = some c) :
    visitAt inosec parent n (i :: rel) =
      visitAt inosec (unionIgnores parent (nodeDirective inosec n).1) c rel := by
  rw [visitAt, hd, hc]
  rfl

mutual
theorem traceSpec_mem (inosec : Bool) (rs : RuleSet) (parent : List String) (addr : List Nat)
    (n : Node) (e : VisitEntry) (he : e ∈ traceSpec inosec rs parent addr n) :
    ∃ rel, e.addr = addr ++ rel ∧
      visitAt inosec parent n rel = some (e.node, e.active) ∧
      e.invoked = invokedSpec rs e.active e.node := by
  cases n with
  | mk k cm cs =>
    rw [traceSpec_eq] at he
    cases hd : (nodeDirective inosec (Node.mk k cm cs)).2 with
    | true =>
      rw [if_pos hd] at he
      cases he
    | false =>
      rw [if_neg (by rw [hd]; simp)] at he
      rcases List.mem_cons.mp he with he | he
      · refine ⟨[], ?_, ?_, ?_⟩
        · rw [he]
          exact (List.append_nil addr).symm
        · rw [he, visitAt_nil_eq inosec parent (Node.mk k cm cs) hd]
        · rw [he]
      · obtain ⟨j, c, rel, hcj, haddr, hvis, hinv⟩ :=
          traceSpecList_mem inosec rs
            (unionIgnores parent (nodeDirective inosec (Node.mk k cm cs)).1) addr 0 cs e he
        refine ⟨j :: rel, ?_, ?_, hinv⟩
        · rw [haddr]
          rw [show (0 : Nat) + j = j from Nat.zero_add j]
          rw [List.append_assoc]
          rfl
        · rw [visitAt_cons_some inosec parent (Node.mk k cm cs) j rel c hd hcj]
          exact hvis
theorem traceSpecList_mem (inosec : Bool) (rs : RuleSet) (parent : List String)
    (addr : List Nat) (i : Nat) (cs : NodeList) (e : VisitEntry)
    (he : e ∈ traceSpecList inosec rs parent addr i cs) :
    ∃ j c rel, childAt cs j = some c ∧ e.addr = (addr ++ [i + j]) ++ rel ∧
      visitAt inosec parent c rel = some (e.node, e.active) ∧
      e.invoked = invokedSpec rs e.active e.node := by
  cases cs with
  | nil => cases he
  | cons c cs2 =>
    rw [traceSpecList_cons] at he
    rcases List.mem_append.mp he with he | he
    · obtain ⟨rel, haddr, hvis, hinv⟩ := traceSpec_mem inosec rs parent (addr ++ [i]) c e he
      exact ⟨0, c, rel, rfl, haddr, hvis, hinv⟩
    · obtain ⟨j, c2, rel, hcj, haddr, hvis, hinv⟩ :=
        traceSpecList_mem inosec rs parent addr (i + 1) cs2 e he
      refine ⟨j + 1, c2, rel, hcj, ?_, hvis, hinv⟩
      rw [haddr]
      rw [show i + 1 + j = i + (j + 1) from by omega]
end

theorem visitAt_concat (inosec : Bool) : ∀ (rel : List Nat) (i : Nat) (parent : List String)
    (n m2 : Node) (s2 : List String),
    visitAt inosec parent n (rel ++ [i]) = some (m2, s2) →
    ∃ m s, visitAt inosec parent n rel = some (m, s) ∧
      childAt m.children i = some m2 ∧
      s2 = unionIgnores s (nodeDirective inosec m2).1 := by
  intro rel
  induction rel with
  | nil =>
    intro i parent n m2 s2 h
    rw [List.nil_append] at h
    cases hd : (nodeDirective inosec n).2 with
    | true =>
      rw [visitAt_cons_prune inosec parent n i [] hd] at h
      cases h
    | false =>
      cases hcj : childAt n.children i with
      | none =>
        rw [visitAt_cons_none inosec parent n i [] hd hcj] at h
        cases h
      | some c =>
        rw [visitAt_cons_some inosec parent n i [] c hd hcj] at h
        cases hdc : (nodeDirective inosec c).2 with
        | true =>
          rw [visitAt_nil_prune inosec _ c hdc] at h
          cases h
        | false =>
          rw [visitAt_nil_eq inosec _ c hdc] at h
          injection h with h2
          have hcm : c = m2 := congrArg Prod.fst h2
          have hs : unionIgnores (unionIgnores parent (nodeDirective inosec n).1)
              (nodeDirective inosec c).1 = s2 := congrArg Prod.snd h2
          refine ⟨n, unionIgnores parent (nodeDirective inosec n).1, ?_, ?_, ?_⟩
          · exact visitAt_nil_eq inosec parent n hd
          · rw [← hcm]
            exact hcj
          · rw [← hs, hcm]
  | cons j rel2 ih =>
    intro i parent n m2 s2 h
    rw [List.cons_append] at h
    cases hd : (nodeDirective inosec n).2 with
    | true =>
      rw [visitAt_cons_prune inosec parent n j (rel2 ++ [i]) hd] at h
      cases h
    | false =>
      cases hcj : childAt n.children j with
      | none =>
        rw [visitAt_cons_none inosec parent n j (rel2 ++ [i]) hd hcj] at h
        cases h
      | some c =>
        rw [visitAt_cons_some inosec parent n j (rel2 ++ [i]) c hd hcj] at h
        obtain ⟨m, s, hv, hcm, hs⟩ := ih i _ c m2 s2 h
        refine ⟨m, s, ?_, hcm, hs⟩
        rw [visitAt_cons_some inosec parent n j rel2 c hd hcj]
        exact hv

theorem visitAt_mono (inosec : Bool) (parent : List String) (n : Node) : ∀ (q rel : List Nat)
    (m m2 : Node) (s s2 : List String),
    visitAt inosec parent n rel = some (m, s) →
    visitAt inosec parent n (rel ++ q) = some (m2, s2) →
    ∀ x ∈ s, x ∈ s2 := by
  intro q
  induction q using List.reverseRecOn with
  | nil =>
    intro rel m m2 s s2 h1 h2 x hx
    rw [List.append_nil, h1] at h2
    injection h2 with h3
    have h4 : s = s2 := congrArg Prod.snd h3
    rw [← h4]
    exact hx
  | append_singleton q2 i ih =>
    intro rel m m2 s s2 h1 h2 x hx
    rw [show rel ++ (q2 ++ [i]) = (rel ++ q2) ++ [i] from (List.append_assoc rel q2 [i]).symm]
      at h2
    obtain ⟨mm, ss, hv, -, hs⟩ := visitAt_concat inosec (rel ++ q2) i parent n m2 s2 h2
    have hmem := ih rel m mm s ss h1 hv x hx
    rw [hs]
    exact (mem_unionIgnores x ss _).mpr (Or.inl hmem)

/-- C1: for any two nodes the walk visits where one is the parent of the
other (child-index addresses), the child's active suppression set is exactly
the union of the parent's active set and the child's own directive's explicit
exclusions; and along any root-to-node (ancestor-to-descendant) address path
the active set never shrinks, so a rule suppressed by an enclosing scope
stays suppressed at every descendant the walk visits. -/
theorem gosec_C1 (a : Analyzer) (root : Node) (e e2 : VisitEntry)
    (he : e ∈ (walk a [] root).2) (he2 : e2 ∈ (walk a [] root).2) :
    (∀ i, e2.addr = e.addr ++ [i] →
       ∀ x, x ∈ e2.active ↔ (x ∈ e.active ∨ x ∈ (nodeDirective a.ignoreNosec e2.node).1)) ∧
    (∀ q, e2.addr = e.addr ++ q → ∀ x ∈ e.active, x ∈ e2.active) := by
  rw [walk_trace] at he he2
  obtain ⟨rel, haddr, hvis, -⟩ := traceSpec_mem _ _ _ _ _ e he
  obtain ⟨rel2, haddr2, hvis2, -⟩ := traceSpec_mem _ _ _ _ _ e2 he2
  rw [List.nil_append] at haddr haddr2
  constructor
  · intro i hi x
    have hr2 : rel2 = rel ++ [i] := by rw [← haddr2, hi, haddr]
    rw [hr2] at hvis2
    obtain ⟨m, s, hv, -, hs⟩ := visitAt_concat a.ignoreNosec rel i _ root e2.node e2.active hvis2
    rw [hvis] at hv
    injection hv with hv2
    have hsm : e.active = s := congrArg Prod.snd hv2
    rw [hs, ← hsm]
    exact mem_unionIgnores x e.active _
  · intro q hq x hx
    have hr2 : rel2 = rel ++ q := by rw [← haddr2, hq, haddr]
    rw [hr2] at hvis2
    exact visitAt_mono a.ignoreNosec _ root q rel e.node e2.node e.active e2.active hvis hvis2 x hx

/-- C1, applied to a concrete parent and child visit. -/
theorem gosec_C1_witness :
    ("G101" ∈ eChildEntry.active ↔
      ("G101" ∈ eRootEntry.active ∨
        "G101" ∈ (nodeDirective A0.ignoreNosec eChildEntry.node).1)) ∧
    ("G101" ∈ eRootEntry.active → "G101" ∈ eChildEntry.active) := by
  have h := gosec_C1 A0 exRoot eRootEntry eChildEntry
    (by rw [show (walk A0 [] exRoot).2 = [eRootEntry, eChildEntry] from rfl]
        exact List.mem_cons_self _ _)
    (by rw [show (walk A0 [] exRoot).2 = [eRootEntry, eChildEntry] from rfl]
        exact List.mem_cons_of_mem _ (List.mem_singleton.mpr rfl))
  exact ⟨h.1 0 rfl "G101", fun hx => h.2 [0] rfl "G101" hx⟩

/-- C2: on a node whose directive signals exclude-all, the walk dispatches no
rule at the node or below it — it returns at once with an empty visit trace,
the analyzer unchanged except for the `NumNosec` bump — so no issue is
recorded from the whole subtree, whatever directives descendants carry. -/
theorem gosec_C2 (a : Analyzer) (addr : List Nat) (n : Node)
    (h : (a.ignoreNode n).2.2 = true) :
    walk a addr n = ((a.ignoreNode n).1, []) ∧
    (walk a addr n).1.issues = a.issues ∧
    (walk a addr n).1.stats.numFound = a.stats.numFound := by
  cases n with
  | mk k cm cs =>
    rcases hstep : a.ignoreNode (Node.mk k cm cs) with ⟨a1, codes, all⟩
    have hall : all = true := by
      rw [hstep] at h
      exact h
    subst hall
    have hw : walk a addr (Node.mk k cm cs) = (a1, []) := by
      rw [walk_eq a addr k cm cs a1 codes true hstep, if_pos rfl]
    have ha1 : a1 = a ∨
        a1 = { a with stats := { a.stats with numNosec := a.stats.numNosec + 1 } } := by
      have hfst := ignoreNode_fst a (Node.mk k cm cs)
      rw [hstep] at hfst
      exact hfst
    refine ⟨by rw [hw], ?_, ?_⟩
    · rw [hw]
      rcases ha1 with h2 | h2 <;> rw [h2]
    · rw [hw]
      rcases ha1 with h2 | h2 <;> rw [h2]

/-- C2, applied to a bare exclude-all marker over a child that carries its
own code-listing directive. -/
theorem gosec_C2_witness :
    walk A0 [] allNode = ((A0.ignoreNode allNode).1, []) ∧
    (walk A0 [] allNode).1.issues = A0.issues ∧
    (walk A0 [] allNode).1.stats.numFound = A0.stats.numFound :=
  gosec_C2 A0 [] allNode rfl

/-- C3: a rule registered for a visited node's category whose identifier lies
in the node's active exclusion set is never invoked there (its identifier is
absent from the node's invocation list), and the issues appended by the
dispatch at such a node come exclusively from the registered rules whose
identifiers are not in the active set — none of which is the excluded rule. -/
theorem gosec_C3 (a : Analyzer) (root : Node) (e : VisitEntry) (r : Rule)
    (he : e ∈ (walk a [] root).2)
    (_hr : r ∈ a.ruleset.registeredFor e.node.kind)
    (hid : r.id ∈ e.active) :
    r.id ∉ e.invoked ∧
    ∀ b : Analyzer,
      ((dispatchNode b e.active e.node).1.issues =
        b.issues ++ ((b.ruleset.registeredFor e.node.kind).filter
          (fun r2 => !(e.active.contains r2.id))).flatMap (fun r2 => (r2.run e.node).1.toList)) ∧
      ∀ r2 ∈ (b.ruleset.registeredFor e.node.kind).filter
          (fun r2 => !(e.active.contains r2.id)), r2.id ≠ r.id := by
  have hnin : ∀ r2 : Rule, (!(e.active.contains r2.id)) = true → r2.id ≠ r.id := by
    intro r2 hb heq
    rw [heq] at hb
    have hc : e.active.contains r.id = true := List.elem_eq_true_of_mem hid
    rw [hc] at hb
    simp at hb
  constructor
  · rw [walk_trace] at he
    obtain ⟨rel, -, -, hinv⟩ := traceSpec_mem _ _ _ _ _ e he
    rw [hinv]
    intro hmem
    unfold invokedSpec at hmem
    obtain ⟨r2, hr2f, hr2id⟩ := List.mem_map.mp hmem
    exact hnin r2 (List.mem_filter.mp hr2f).2 hr2id
  · intro b
    constructor
    · exact dispatchList_issues e.active e.node (b.ruleset.registeredFor e.node.kind) (b, [])
    · intro r2 hr2
      exact hnin r2 (List.mem_filter.mp hr2).2

/-- C3, applied to a concrete suppressed rule. -/
theorem gosec_C3_witness :
    ("G101" ∉ e3Entry.invoked) ∧
    ((dispatchNode A3 e3Entry.active e3Entry.node).1.issues =
      A3.issues ++ ((A3.ruleset.registeredFor e3Entry.node.kind).filter
        (fun r2 => !(e3Entry.active.contains r2.id))).flatMap
        (fun r2 => (r2.run e3Entry.node).1.toList)) := by
  have h := gosec_C3 A3 n3 e3Entry hitRule
    (by rw [show (walk A3 [] n3).2 = [e3Entry] from rfl]
        exact List.mem_singleton.mpr rfl)
    (by rw [show A3.ruleset.registeredFor e3Entry.node.kind = [hitRule] from rfl]
        exact List.mem_singleton.mpr rfl)
    (List.mem_singleton.mpr rfl)
  exact ⟨h.1, (h.2 A3).1⟩
